import Mathlib

/-!
Verification of the bounded hierarchical tree materializer of
json-verse-explorer (src/src/components/GraphVisualizer.tsx and
src/src/utils/typeFixes.ts), embedded shallowly in Lean 4.

JSON values are modelled by the inductive `JsonValue`; the JS number type is
modelled by `Int` (the claims under study never exercise non-integer
numbers).  The React component closure state (`expandedNodes`, `currentPage`,
`nodeLimit`) becomes explicit parameters of the embedded functions.
-/

namespace JsonVerse

/-- A parsed JSON value, the input type of the visualizer
(`jsonData` in GraphVisualizer.tsx).  Objects keep their entries in
insertion order, as `Object.entries` does. -/
inductive JsonValue where
  | null : JsonValue
  | bool (b : Bool) : JsonValue
  | num (n : Int) : JsonValue
  | str (s : String) : JsonValue
  | arr (items : List JsonValue) : JsonValue
  | obj (entries : List (String × JsonValue)) : JsonValue
deriving Repr

/-- The `Node` interface of GraphVisualizer.tsx: the output unit of the
builder.  Optional fields of the TS interface become `Option`s; a missing
`children` field (leaf) is `none`, which is distinct from an empty
children array `some []`. -/
inductive DisplayNode where
  | mk (id : String) (name : String) (value : Option String)
      (children : Option (List DisplayNode)) (originalData : Option JsonValue)
      (collapsed : Option Bool) : DisplayNode
deriving Repr

def DisplayNode.id : DisplayNode → String
  | .mk i _ _ _ _ _ => i

def DisplayNode.name : DisplayNode → String
  | .mk _ n _ _ _ _ => n

def DisplayNode.value : DisplayNode → Option String
  | .mk _ _ v _ _ _ => v

def DisplayNode.children : DisplayNode → Option (List DisplayNode)
  | .mk _ _ _ c _ _ => c

def DisplayNode.originalData : DisplayNode → Option JsonValue
  | .mk _ _ _ _ o _ => o

def DisplayNode.collapsed : DisplayNode → Option Bool
  | .mk _ _ _ _ _ c => c

/-- Models `safeNumberConversion` from src/src/utils/typeFixes.ts as it is
used in `countNodes`: its argument there is always a JS number (the result
of a recursive `countNodes` call), so the first branch
(`typeof value === 'number'`) applies and the value is returned unchanged. -/
def safeNumberConversion (value : Nat) : Nat := value

mutual

/-- `countNodes` from GraphVisualizer.tsx (lines 92-105): total node count
of the raw JSON value.  The JS `reduce` with initial accumulator `0` is
unfolded into the structural list recursions `countList` / `countEntries`
(addition on `Nat` is associative and commutative, so the fold order is
immaterial). -/
def countNodes : JsonValue → Nat
  | .null => 1
  | .bool _ => 1
  | .num _ => 1
  | .str _ => 1
  | .arr items => 1 + countList items
  | .obj entries => 1 + countEntries entries

/-- Accumulates `countNodes` over array items (the `data.reduce` of line 100). -/
def countList : List JsonValue → Nat
  | [] => 0
  | x :: xs => countNodes x + countList xs

/-- Accumulates `safeNumberConversion (countNodes value)` over object values
(the `Object.values(data).reduce` of line 104). -/
def countEntries : List (String × JsonValue) → Nat
  | [] => 0
  | (_, v) :: xs => safeNumberConversion (countNodes v) + countEntries xs

end

/-- The node-limit policy of the data-conversion effect
(GraphVisualizer.tsx lines 130-137), called `deriveBudget` in the spec:
`count > 500 → 50`, `count > 200 → 100`, otherwise `200`. -/
def deriveBudget (totalNodes : Int) : Nat :=
  if totalNodes > 500 then 50
  else if totalNodes > 200 then 100
  else 200

/-- The path of the node currently being built:
`nodePath ? nodePath-key : key` (line 33). -/
def curPath (nodePath key : String) : String :=
  if nodePath = "" then key else nodePath ++ "-" ++ key

/-- Number of leading array elements skipped by the pagination window:
`currentPage * 20` when the array is long enough to paginate, else `0`
(lines 62-65). -/
def sliceSkip (currentPage len : Nat) : Nat :=
  if 20 < len then currentPage * 20 else 0

/-- Width of the pagination window: `20` when the array paginates, else the
whole array (lines 62-65). -/
def sliceCount (len : Nat) : Nat :=
  if 20 < len then 20 else len

/-- The display name of an array node: the key, annotated with the 1-based
inclusive range shown and the total length when the array paginates
(lines 69-74). -/
def arrayName (key : String) (currentPage len : Nat) : String :=
  if 20 < len then
    key ++ " (showing " ++ toString (currentPage * 20 + 1) ++ "-" ++
      toString (min ((currentPage + 1) * 20) len) ++ " of " ++ toString len ++ ")"
  else key

/-- The summary value string of a collapsed placeholder (lines 53-55). -/
def collapsedSummary : JsonValue → String
  | .arr items => "Array[" ++ toString items.length ++ " items]"
  | .obj entries => "Object\x7b" ++ toString entries.length ++ " props\x7d"
  | _ => ""

mutual

/-- `convertToHierarchy` from GraphVisualizer.tsx (lines 32-90).  The React
state the source closes over (`expandedNodes`, `currentPage`, `nodeLimit`)
is passed explicitly.  `data.slice(startIdx, startIdx + 20).map((item, index)
=> ...)` is fused into the structural recursion `convertSlice` (skip the
first `startIdx` items, emit at most `20`, keying each emitted child by its
index local to the slice), and `Object.entries(data).slice(0, nodeLimit)
.map(([k, v]) => ...)` into `convertEntries`. -/
def convertToHierarchy (expandedNodes : Finset String) (currentPage nodeLimit : Nat)
    (data : JsonValue) (key : String) (currentDepth maxDepth : Nat)
    (nodePath : String) : DisplayNode :=
  match data with
  | .null => .mk (curPath nodePath key) key (some "null") none none none
  | .bool b => .mk (curPath nodePath key) key (some (cond b "true" "false")) none none none
  | .num n => .mk (curPath nodePath key) key (some (toString n)) none none none
  | .str s => .mk (curPath nodePath key) key (some s) none none none
  | .arr items =>
    if curPath nodePath key ∉ expandedNodes ∧ maxDepth ≤ currentDepth then
      .mk (curPath nodePath key) key (some (collapsedSummary (.arr items))) none
        (some (.arr items)) (some true)
    else
      .mk (curPath nodePath key) (arrayName key currentPage items.length) none
        (some (convertSlice expandedNodes currentPage nodeLimit items
          (sliceSkip currentPage items.length) (sliceCount items.length) 0
          (currentDepth + 1) maxDepth (curPath nodePath key)))
        (some (.arr items)) none
  | .obj entries =>
    if curPath nodePath key ∉ expandedNodes ∧ maxDepth ≤ currentDepth then
      .mk (curPath nodePath key) key (some (collapsedSummary (.obj entries))) none
        (some (.obj entries)) (some true)
    else
      .mk (curPath nodePath key) key none
        (some (convertEntries expandedNodes currentPage nodeLimit entries nodeLimit
          (currentDepth + 1) maxDepth (curPath nodePath key)))
        (some (.obj entries)) none

/-- The array branch: skip `skip` items, then convert at most `count` items,
keying each by its 0-based index `idx` local to the emitted slice
(`sampleData.map((item, index) => convertToHierarchy(item, String(index),
...))`, lines 60-78). -/
def convertSlice (expandedNodes : Finset String) (currentPage nodeLimit : Nat)
    (l : List JsonValue) (skip count idx depth maxDepth : Nat)
    (parentPath : String) : List DisplayNode :=
  match l, skip, count with
  | [], _, _ => []
  | _ :: xs, skip + 1, count =>
      convertSlice expandedNodes currentPage nodeLimit xs skip count idx depth
        maxDepth parentPath
  | x :: xs, 0, count + 1 =>
      convertToHierarchy expandedNodes currentPage nodeLimit x (toString idx)
          depth maxDepth parentPath ::
        convertSlice expandedNodes currentPage nodeLimit xs 0 count (idx + 1)
          depth maxDepth parentPath
  | _ :: _, 0, 0 => []

/-- The object branch: convert the first `limit` entries in original key
order (`Object.entries(data).slice(0, nodeLimit).map(([k, v]) =>
convertToHierarchy(v, k, ...))`, lines 86-88). -/
def convertEntries (expandedNodes : Finset String) (currentPage nodeLimit : Nat)
    (l : List (String × JsonValue)) (limit depth maxDepth : Nat)
    (parentPath : String) : List DisplayNode :=
  match l, limit with
  | [], _ => []
  | _ :: _, 0 => []
  | (k, v) :: xs, limit + 1 =>
      convertToHierarchy expandedNodes currentPage nodeLimit v k depth maxDepth
          parentPath ::
        convertEntries expandedNodes currentPage nodeLimit xs limit depth
          maxDepth parentPath

end

mutual

/-- Total number of `DisplayNode`s in a built tree (a node with a missing
`children` field counts 1; a node with a children list counts 1 plus the
sizes of its children). -/
def displaySize : DisplayNode → Nat
  | .mk _ _ _ none _ _ => 1
  | .mk _ _ _ (some cs) _ _ => 1 + displaySizeList cs

/-- Sum of `displaySize` over a children list. -/
def displaySizeList : List DisplayNode → Nat
  | [] => 0
  | c :: cs => displaySize c + displaySizeList cs

end

mutual

/-- All `id` fields occurring in a built tree, in preorder. -/
def collectIds : DisplayNode → List String
  | .mk i _ _ none _ _ => [i]
  | .mk i _ _ (some cs) _ _ => i :: collectIdsList cs

/-- Concatenation of `collectIds` over a children list. -/
def collectIdsList : List DisplayNode → List String
  | [] => []
  | c :: cs => collectIds c ++ collectIdsList cs

end

/-- A string containing no `-` character (the path separator). -/
def dashFree (s : String) : Bool :=
  s.data.all (fun c => c ≠ '-')

mutual

/-- Every object anywhere inside the value has pairwise-distinct,
separator-free keys.  Key distinctness is automatic for JavaScript objects;
separator-freedom is the side condition under which the path scheme of the
builder is injective. -/
def goodKeys : JsonValue → Bool
  | .null => true
  | .bool _ => true
  | .num _ => true
  | .str _ => true
  | .arr items => goodKeysList items
  | .obj entries =>
      decide (entries.map Prod.fst).Nodup &&
        (entries.map Prod.fst).all dashFree && goodKeysEntries entries

def goodKeysList : List JsonValue → Bool
  | [] => true
  | x :: xs => goodKeys x && goodKeysList xs

def goodKeysEntries : List (String × JsonValue) → Bool
  | [] => true
  | (_, v) :: xs => goodKeys v && goodKeysEntries xs

end

/-- `id` extends `cur` at a component boundary: `id` is `cur` itself or
`cur` followed by a `-`-started suffix. -/
def IdExt (cur id : String) : Prop :=
  ∃ t : List Char, id.data = cur.data ++ t ∧ (t = [] ∨ ∃ u, t = '-' :: u)

/-- The key/value pairs the builder recurses into below a container node:
for an array, the pagination-window slice keyed by slice-local indices; for
an object, the first `nodeLimit` entries keyed by their own keys. -/
def childSpecs (currentPage nodeLimit : Nat) : JsonValue → List (String × JsonValue)
  | .arr items =>
      (((items.drop (sliceSkip currentPage items.length)).take
          (sliceCount items.length)).enum).map (fun q => (toString q.1, q.2))
  | .obj entries => entries.take nodeLimit
  | _ => []

mutual

/-- The paths at which one builder run consults the expanded set in a way
that can influence the output: the container nodes it visits at
`depth ≥ maxDepth` (the progressive-disclosure boundary of lines 43-44). -/
def testedPaths (e : Finset String) (currentPage nodeLimit : Nat)
    (data : JsonValue) (key : String) (currentDepth maxDepth : Nat)
    (nodePath : String) : List String :=
  match data with
  | .null => []
  | .bool _ => []
  | .num _ => []
  | .str _ => []
  | .arr items =>
    if maxDepth ≤ currentDepth then
      if curPath nodePath key ∈ e then
        curPath nodePath key ::
          testedSlice e currentPage nodeLimit items
            (sliceSkip currentPage items.length) (sliceCount items.length) 0
            (currentDepth + 1) maxDepth (curPath nodePath key)
      else [curPath nodePath key]
    else
      testedSlice e currentPage nodeLimit items
        (sliceSkip currentPage items.length) (sliceCount items.length) 0
        (currentDepth + 1) maxDepth (curPath nodePath key)
  | .obj entries =>
    if maxDepth ≤ currentDepth then
      if curPath nodePath key ∈ e then
        curPath nodePath key ::
          testedEntries e currentPage nodeLimit entries nodeLimit
            (currentDepth + 1) maxDepth (curPath nodePath key)
      else [curPath nodePath key]
    else
      testedEntries e currentPage nodeLimit entries nodeLimit
        (currentDepth + 1) maxDepth (curPath nodePath key)

/-- `testedPaths` accumulated over the array pagination window. -/
def testedSlice (e : Finset String) (currentPage nodeLimit : Nat)
    (l : List JsonValue) (skip count idx depth maxDepth : Nat)
    (parentPath : String) : List String :=
  match l, skip, count with
  | [], _, _ => []
  | _ :: xs, skip + 1, count =>
      testedSlice e currentPage nodeLimit xs skip count idx depth maxDepth
        parentPath
  | x :: xs, 0, count + 1 =>
      testedPaths e currentPage nodeLimit x (toString idx) depth maxDepth
          parentPath ++
        testedSlice e currentPage nodeLimit xs 0 count (idx + 1) depth maxDepth
          parentPath
  | _ :: _, 0, 0 => []

/-- `testedPaths` accumulated over the first `limit` object entries. -/
def testedEntries (e : Finset String) (currentPage nodeLimit : Nat)
    (l : List (String × JsonValue)) (limit depth maxDepth : Nat)
    (parentPath : String) : List String :=
  match l, limit with
  | [], _ => []
  | _ :: _, 0 => []
  | (k, v) :: xs, limit + 1 =>
      testedPaths e currentPage nodeLimit v k depth maxDepth parentPath ++
        testedEntries e currentPage nodeLimit xs limit depth maxDepth parentPath

end

/-- A value the builder turns into a leaf immediately: `null` or a
non-object scalar (`typeof data !== 'object'`, lines 35-41). -/
def isScalarOrNull : JsonValue → Bool
  | .null => true
  | .bool _ => true
  | .num _ => true
  | .str _ => true
  | .arr _ => false
  | .obj _ => false

/-- `toggleNode` from GraphVisualizer.tsx (lines 107-118): flip membership
of `nodeId` in the expanded set. -/
def toggleNode (nodeId : String) (prevExpanded : Finset String) : Finset String :=
  if nodeId ∈ prevExpanded then prevExpanded.erase nodeId
  else insert nodeId prevExpanded

/-- JavaScript truthiness on parsed JSON values (`!jsonData`, lines 122 and
279): `null`, `false`, `0` and `""` are falsy; arrays and objects (even
empty ones) are truthy. -/
def isFalsy : JsonValue → Bool
  | .null => true
  | .bool b => !b
  | .num n => n == 0
  | .str s => s == ""
  | .arr _ => false
  | .obj _ => false

/-- The component state of `GraphVisualizer` relevant to the core
(lines 24-29); `zoomLevel` and the SVG ref only feed the external layout
collaborator and are omitted. -/
structure VizState where
  currentPage : Nat
  nodeLimit : Nat
  totalNodes : Nat
  expandedNodes : Finset String
  nodesData : Option DisplayNode

/-- The `useState` initial values (lines 24-29). -/
def initialState : VizState :=
  { currentPage := 0, nodeLimit := 100, totalNodes := 0,
    expandedNodes := ∅, nodesData := none }

/-- The data-conversion effect (lines 120-141): on a falsy input it returns
early and changes nothing; otherwise it runs the census, derives the new
node limit, and rebuilds the tree.  The rebuild uses the node limit of the
current render closure (`s.nodeLimit`), not the freshly derived one, because
`setNodeLimit` only takes effect on a later render and `nodeLimit` is not in
the effect dependency list. -/
def dataEffect (jsonData : JsonValue) (s : VizState) : VizState :=
  if isFalsy jsonData then s
  else
    { s with
      totalNodes := countNodes jsonData
      nodeLimit := deriveBudget (countNodes jsonData)
      nodesData := some (convertToHierarchy s.expandedNodes s.currentPage
        s.nodeLimit jsonData "root" 0 2 "") }

/-- What the component renders, restricted to the core: the empty-input
placeholder (lines 279-285) or the graph view over the current state. -/
inductive RenderView where
  | placeholder : RenderView
  | graph (totalNodes nodeLimit : Nat) (nodesData : Option DisplayNode) : RenderView

/-- The render function of `GraphVisualizer`: falsy input short-circuits to
the placeholder before any graph markup is produced. -/
def render (jsonData : JsonValue) (s : VizState) : RenderView :=
  if isFalsy jsonData then .placeholder
  else .graph s.totalNodes s.nodeLimit s.nodesData

/-- `hasNextPage` (line 276): the root is an array with elements beyond the
current window. -/
def hasNextPage (jsonData : JsonValue) (currentPage : Nat) : Bool :=
  match jsonData with
  | .arr items => decide ((currentPage + 1) * 20 < items.length)
  | _ => false

/-- `hasPrevPage` (line 277). -/
def hasPrevPage (currentPage : Nat) : Bool :=
  decide (0 < currentPage)

/-- Page indices reachable through the pagination buttons (lines 312-334):
start at 0; the next button increments only while `hasNextPage`, the prev
button decrements only while `hasPrevPage` (otherwise each is disabled). -/
inductive PageReachable (root : JsonValue) : Nat → Prop where
  | init : PageReachable root 0
  | next (p : Nat) : PageReachable root p → hasNextPage root p = true →
      PageReachable root (p + 1)
  | prev (p : Nat) : PageReachable root p → hasPrevPage p = true →
      PageReachable root (p - 1)

/-- A nested-object chain of the given depth, used to exercise the
progressive-disclosure boundary. -/
def chain : Nat → JsonValue
  | 0 => .null
  | n + 1 => .obj [("a", chain n)]

/-- The path the builder assigns to the chain node at the given depth. -/
def chainPath : Nat → String
  | 0 => "root"
  | n + 1 => chainPath n ++ "-" ++ "a"

/-- The expanded set holding every chain path of depth at most `n`. -/
def chainExpanded (n : Nat) : Finset String :=
  ((List.range (n + 1)).map chainPath).toFinset

/-! ## Basic lemmas about the census -/

theorem countList_eq_sum (l : List JsonValue) :
    countList l = (l.map countNodes).sum := by
  induction l with
  | nil => rfl
  | cons x xs ih => simp [countList, ih]

theorem countEntries_eq_sum (l : List (String × JsonValue)) :
    countEntries l = (l.map (fun p => countNodes p.2)).sum := by
  induction l with
  | nil => rfl
  | cons p xs ih => cases p; simp [countEntries, safeNumberConversion, ih]

theorem one_le_countNodes (v : JsonValue) : 1 ≤ countNodes v := by
  cases v <;> simp [countNodes]

theorem countList_pos_of_ne_nil (l : List JsonValue) (h : l ≠ []) :
    1 ≤ countList l := by
  cases l with
  | nil => exact absurd rfl h
  | cons x xs =>
    have := one_le_countNodes x
    simp only [countList]
    omega

theorem countEntries_pos_of_ne_nil (l : List (String × JsonValue)) (h : l ≠ []) :
    1 ≤ countEntries l := by
  cases l with
  | nil => exact absurd rfl h
  | cons p xs =>
    cases p with
    | mk k v =>
      have := one_le_countNodes v
      simp only [countEntries, safeNumberConversion]
      omega

/-- Claim C5, counterexample: the empty array is not a scalar, yet its census
count is 1, so `count(v) == 1` does not imply that `v` is a scalar or null. -/
theorem c5_counterexample :
    countNodes (.arr []) = 1 ∧ isScalarOrNull (.arr []) = false := by
  exact ⟨rfl, rfl⟩

/-- Claim C5 (amended): `countNodes` is at least 1, equals 1 on null and
non-object scalars, adds the element counts for arrays and the property
value counts for objects; `count(v) = 1` iff `v` is a scalar, null, or an
empty array or object (the original claim omitted the empty containers). -/
theorem c5_amended_census :
    (∀ v, 1 ≤ countNodes v) ∧
    countNodes .null = 1 ∧
    (∀ b, countNodes (.bool b) = 1) ∧
    (∀ n, countNodes (.num n) = 1) ∧
    (∀ s, countNodes (.str s) = 1) ∧
    (∀ items, countNodes (.arr items) = 1 + (items.map countNodes).sum) ∧
    (∀ entries, countNodes (.obj entries) =
      1 + (entries.map (fun p => countNodes p.2)).sum) ∧
    (∀ v, countNodes v = 1 ↔
      (isScalarOrNull v = true ∨ v = .arr [] ∨ v = .obj [])) := by
  refine ⟨one_le_countNodes, rfl, fun _ => rfl, fun _ => rfl, fun _ => rfl,
    fun items => by simp [countNodes, countList_eq_sum],
    fun entries => by simp [countNodes, countEntries_eq_sum],
    fun v => ?_⟩
  cases v with
  | null => simp [countNodes, isScalarOrNull]
  | bool b => simp [countNodes, isScalarOrNull]
  | num n => simp [countNodes, isScalarOrNull]
  | str s => simp [countNodes, isScalarOrNull]
  | arr items =>
    simp only [countNodes, isScalarOrNull]
    constructor
    · intro h
      cases items with
      | nil => simp
      | cons x xs =>
        have := countList_pos_of_ne_nil (x :: xs) (by simp)
        omega
    · rintro (h | h | h) <;> simp_all [countList]
  | obj entries =>
    simp only [countNodes, isScalarOrNull]
    constructor
    · intro h
      cases entries with
      | nil => simp
      | cons p xs =>
        have := countEntries_pos_of_ne_nil (p :: xs) (by simp)
        omega
    · rintro (h | h | h) <;> simp_all [countEntries]

/-- Claim C6: the node-limit policy returns 50 above 500 total nodes, 100
between 201 and 500, 200 otherwise, and is therefore non-increasing in the
total node count. -/
theorem c6_budget_policy :
    (∀ n : Int, 500 < n → deriveBudget n = 50) ∧
    (∀ n : Int, 200 < n → n ≤ 500 → deriveBudget n = 100) ∧
    (∀ n : Int, n ≤ 200 → deriveBudget n = 200) ∧
    (∀ a b : Int, a ≤ b → deriveBudget b ≤ deriveBudget a) := by
  refine ⟨fun n h => ?_, fun n h1 h2 => ?_, fun n h => ?_, fun a b h => ?_⟩ <;>
    · unfold deriveBudget
      split_ifs <;> omega

theorem c6_witness :
    deriveBudget 501 = 50 ∧ deriveBudget 500 = 100 ∧ deriveBudget 200 = 200 ∧
    deriveBudget 501 ≤ deriveBudget 3 :=
  ⟨c6_budget_policy.1 501 (by decide),
   c6_budget_policy.2.1 500 (by decide) (by decide),
   c6_budget_policy.2.2.1 200 (by decide),
   c6_budget_policy.2.2.2 3 501 (by decide)⟩

/-- Claim C7: `toggleNode` flips membership of the node id in the expanded
set, a double toggle restores the set exactly, and therefore rebuilding
after toggling a path in and back out reproduces the original tree (in
particular the original collapsed placeholder) bit for bit. -/
theorem c7_toggle_roundtrip :
    (∀ (nodeId m : String) (e : Finset String),
      m ∈ toggleNode nodeId e ↔ if m = nodeId then nodeId ∉ e else m ∈ e) ∧
    (∀ (nodeId : String) (e : Finset String),
      toggleNode nodeId (toggleNode nodeId e) = e) ∧
    (∀ (e : Finset String) (pg lim : Nat) (v : JsonValue) (key : String)
        (d maxD : Nat) (np nodeId : String),
      convertToHierarchy (toggleNode nodeId (toggleNode nodeId e)) pg lim v
          key d maxD np =
        convertToHierarchy e pg lim v key d maxD np) := by
  have h2 : ∀ (nodeId : String) (e : Finset String),
      toggleNode nodeId (toggleNode nodeId e) = e := by
    intro n e
    unfold toggleNode
    by_cases h : n ∈ e
    · rw [if_pos h, if_neg (by simp), Finset.insert_erase h]
    · rw [if_neg h, if_pos (Finset.mem_insert_self n e), Finset.erase_insert h]
  refine ⟨fun n m e => ?_, h2,
    fun e pg lim v key d maxD np n => by rw [h2]⟩
  unfold toggleNode
  by_cases h : n ∈ e
  · rw [if_pos h]
    by_cases hm : m = n
    · subst hm; simp [Finset.mem_erase, h]
    · simp [Finset.mem_erase, hm]
  · rw [if_neg h]
    by_cases hm : m = n
    · subst hm; simp [Finset.mem_insert, h]
    · simp [Finset.mem_insert, hm]

/-- Claim C8, counterexample: running the data-conversion effect on a fresh
document leaves a nonzero page index and a nonempty expanded set untouched;
nothing in the component resets them when the input changes. -/
theorem c8_counterexample :
    (dataEffect (.num 1)
      (⟨3, 100, 0, insert "p" ∅, none⟩ : VizState)).currentPage = 3 ∧
    (dataEffect (.num 1)
      (⟨3, 100, 0, insert "p" ∅, none⟩ : VizState)).expandedNodes ≠ ∅ := by
  constructor
  · rfl
  · have h : (dataEffect (.num 1)
        (⟨3, 100, 0, insert "p" ∅, none⟩ : VizState)).expandedNodes =
        insert "p" ∅ := rfl
    rw [h]
    exact Finset.insert_ne_empty _ _

/-- Claim C8 (amended): loading a new JSON document does not reset the
pagination page or the expanded-path set; the data-conversion effect
recomputes the census, node limit and tree but always preserves
`currentPage` and `expandedNodes`. -/
theorem c8_amended_no_reset :
    ∀ (j : JsonValue) (s : VizState),
      (dataEffect j s).currentPage = s.currentPage ∧
      (dataEffect j s).expandedNodes = s.expandedNodes := by
  intro j s
  unfold dataEffect
  split <;> exact ⟨rfl, rfl⟩

/-- Claim C10: on a falsy root (null, false, 0 or the empty string) the
data-conversion effect returns before running the census or the builder,
and the component renders the empty-input placeholder — even when the falsy
value is itself a valid JSON document. -/
theorem c10_falsy_guard :
    ∀ (j : JsonValue) (s : VizState), isFalsy j = true →
      dataEffect j s = s ∧ render j s = RenderView.placeholder := by
  intro j s h
  unfold dataEffect render
  rw [h]
  exact ⟨rfl, rfl⟩

theorem c10_witness :
    dataEffect (.num 0) initialState = initialState ∧
    render (.num 0) initialState = RenderView.placeholder :=
  c10_falsy_guard (.num 0) initialState (by decide)

/-! ## Pagination state machine -/

theorem pageReachable_mul_lt (items : List JsonValue) (p : Nat)
    (hlen : 20 < items.length) (h : PageReachable (.arr items) p) :
    p * 20 < items.length := by
  induction h with
  | init => omega
  | next q hq hn ih =>
    simp only [hasNextPage, decide_eq_true_eq] at hn
    omega
  | prev q hq hn ih =>
    simp only [hasPrevPage, decide_eq_true_eq] at hn
    have : (q - 1) * 20 ≤ q * 20 := Nat.mul_le_mul_right 20 (Nat.sub_le q 1)
    omega

/-- Claim C9: for a root array longer than 20, every page index reachable
through the next/prev buttons keeps the pagination window in range
(`page * 20 < length`, i.e. `page ≤ ceil(length/20) - 1`), the prev button
is disabled exactly at page 0, and the next button is disabled exactly at
the last page, so the builder never receives an out-of-range page. -/
theorem c9_page_bounds :
    ∀ (items : List JsonValue) (p : Nat), 20 < items.length →
      PageReachable (.arr items) p →
      p * 20 < items.length ∧
      p ≤ (items.length + 19) / 20 - 1 ∧
      (hasPrevPage p = false ↔ p = 0) ∧
      (hasNextPage (.arr items) p = false ↔ p = (items.length + 19) / 20 - 1) := by
  intro items p hlen hreach
  have hlt := pageReachable_mul_lt items p hlen hreach
  refine ⟨hlt, by omega, ?_, ?_⟩
  · simp only [hasPrevPage, decide_eq_false_iff_not, Nat.not_lt]
    omega
  · simp only [hasNextPage, decide_eq_false_iff_not, Nat.not_lt]
    omega

theorem c9_witness :
    1 * 20 < (((List.range 25).map fun i => JsonValue.num i)).length ∧
    1 ≤ ((((List.range 25).map fun i => JsonValue.num i)).length + 19) / 20 - 1 ∧
    (hasPrevPage 1 = false ↔ 1 = 0) ∧
    (hasNextPage (.arr ((List.range 25).map fun i => JsonValue.num i)) 1 = false ↔
      1 = ((((List.range 25).map fun i => JsonValue.num i)).length + 19) / 20 - 1) :=
  c9_page_bounds ((List.range 25).map fun i => JsonValue.num i) 1 (by decide)
    (PageReachable.next 0 PageReachable.init (by decide))

/-! ## The array pagination window and the object budget window -/

theorem convertSlice_eq (e : Finset String) (pg lim : Nat) :
    ∀ (l : List JsonValue) (skip count idx d maxD : Nat) (np : String),
      convertSlice e pg lim l skip count idx d maxD np =
        (((l.drop skip).take count).enumFrom idx).map fun q =>
          convertToHierarchy e pg lim q.2 (toString q.1) d maxD np := by
  intro l
  induction l with
  | nil => intro skip count idx d maxD np; simp [convertSlice]
  | cons x xs ih =>
    intro skip count idx d maxD np
    match skip, count with
    | skip + 1, count =>
      rw [List.drop_succ_cons]
      exact ih skip count idx d maxD np
    | 0, 0 => simp [convertSlice]
    | 0, count + 1 =>
      simp only [convertSlice, List.drop_zero, List.take_succ_cons,
        List.enumFrom_cons, List.map_cons]
      refine congrArg _ ?_
      have := ih 0 count (idx + 1) d maxD np
      rw [List.drop_zero] at this
      exact this

theorem convertEntries_eq (e : Finset String) (pg lim : Nat) :
    ∀ (l : List (String × JsonValue)) (limit d maxD : Nat) (np : String),
      convertEntries e pg lim l limit d maxD np =
        (l.take limit).map fun p =>
          convertToHierarchy e pg lim p.2 p.1 d maxD np := by
  intro l
  induction l with
  | nil => intro limit d maxD np; simp [convertEntries]
  | cons p xs ih =>
    intro limit d maxD np
    match limit with
    | 0 => simp [convertEntries]
    | limit + 1 =>
      cases p with
      | mk k v =>
        simp only [convertEntries, List.take_succ_cons, List.map_cons]
        exact congrArg _ (ih limit d maxD np)

/-- Claim C3: for an array longer than 20 built at page `p` (and not at the
collapse boundary), the children are exactly the conversions of the
contiguous slice `[p*20, p*20+20)` clipped to the array, keyed by their
slice-local indices, and the name carries the 1-based inclusive range and
total; an array of length at most 20 shows all elements and no range note;
concretely, a 25-element array yields 20 children and the note
`(showing 1-20 of 25)` at page 0, and 5 children with `(showing 21-25 of
25)` at page 1. -/
theorem c3_array_pagination :
    (∀ (e : Finset String) (pg lim : Nat) (items : List JsonValue)
        (key : String) (d maxD : Nat) (np : String),
      20 < items.length →
      ¬(curPath np key ∉ e ∧ maxD ≤ d) →
      (convertToHierarchy e pg lim (.arr items) key d maxD np).children =
        some ((((items.drop (pg * 20)).take 20).enum).map fun q =>
          convertToHierarchy e pg lim q.2 (toString q.1) (d + 1) maxD
            (curPath np key)) ∧
      (convertToHierarchy e pg lim (.arr items) key d maxD np).name =
        key ++ " (showing " ++ toString (pg * 20 + 1) ++ "-" ++
          toString (min ((pg + 1) * 20) items.length) ++ " of " ++
          toString items.length ++ ")") ∧
    (∀ (e : Finset String) (pg lim : Nat) (items : List JsonValue)
        (key : String) (d maxD : Nat) (np : String),
      items.length ≤ 20 →
      ¬(curPath np key ∉ e ∧ maxD ≤ d) →
      (convertToHierarchy e pg lim (.arr items) key d maxD np).children =
        some ((items.enum).map fun q =>
          convertToHierarchy e pg lim q.2 (toString q.1) (d + 1) maxD
            (curPath np key)) ∧
      (convertToHierarchy e pg lim (.arr items) key d maxD np).name = key) ∧
    ((convertToHierarchy ∅ 0 200
        (.arr ((List.range 25).map fun i => JsonValue.num i)) "root" 0 2
        "").children.getD []).length = 20 ∧
    (convertToHierarchy ∅ 0 200
        (.arr ((List.range 25).map fun i => JsonValue.num i)) "root" 0 2
        "").name = "root (showing 1-20 of 25)" ∧
    ((convertToHierarchy ∅ 1 200
        (.arr ((List.range 25).map fun i => JsonValue.num i)) "root" 0 2
        "").children.getD []).length = 5 ∧
    (convertToHierarchy ∅ 1 200
        (.arr ((List.range 25).map fun i => JsonValue.num i)) "root" 0 2
        "").name = "root (showing 21-25 of 25)" := by
  refine ⟨?_, ?_, by decide, by decide, by decide, by decide⟩
  · intro e pg lim items key d maxD np hlen hnc
    simp only [convertToHierarchy]
    rw [if_neg hnc]
    constructor
    · simp only [DisplayNode.children]
      rw [convertSlice_eq]
      simp [sliceSkip, sliceCount, if_pos hlen, List.enum]
    · simp only [DisplayNode.name]
      simp [arrayName, if_pos hlen]
  · intro e pg lim items key d maxD np hlen hnc
    simp only [convertToHierarchy]
    rw [if_neg hnc]
    have hnot : ¬ 20 < items.length := by omega
    constructor
    · simp only [DisplayNode.children]
      rw [convertSlice_eq]
      simp [sliceSkip, sliceCount, if_neg hnot, List.enum]
    · simp only [DisplayNode.name]
      simp [arrayName, if_neg hnot]

theorem c3_witness :
    (convertToHierarchy ∅ 1 200
        (.arr ((List.range 25).map fun i => JsonValue.num i)) "root" 0 2
        "").children =
      some (((((List.range 25).map fun i => JsonValue.num i).drop
          (1 * 20)).take 20).enum.map fun q =>
        convertToHierarchy ∅ 1 200 q.2 (toString q.1) (0 + 1) 2
          (curPath "" "root")) ∧
    (convertToHierarchy ∅ 1 200
        (.arr ((List.range 25).map fun i => JsonValue.num i)) "root" 0 2
        "").name =
      "root" ++ " (showing " ++ toString (1 * 20 + 1) ++ "-" ++
        toString (min ((1 + 1) * 20)
          (((List.range 25).map fun i => JsonValue.num i)).length) ++
        " of " ++
        toString (((List.range 25).map fun i => JsonValue.num i)).length ++
        ")" :=
  c3_array_pagination.1 ∅ 1 200 ((List.range 25).map fun i => JsonValue.num i)
    "root" 0 2 "" (by decide) (by decide)

/-! ## The progressive-disclosure boundary -/

theorem sizeOf_mem_arr_le {items : List JsonValue} {x : JsonValue} {N : Nat}
    (hv : sizeOf (JsonValue.arr items) ≤ N + 1) (hx : x ∈ items) :
    sizeOf x ≤ N := by
  have h1 := List.sizeOf_lt_of_mem hx
  have h2 : sizeOf (JsonValue.arr items) = 1 + sizeOf items := by
    simp [JsonValue.arr.sizeOf_spec]
  omega

theorem sizeOf_mem_obj_le {entries : List (String × JsonValue)}
    {p : String × JsonValue} {N : Nat}
    (hv : sizeOf (JsonValue.obj entries) ≤ N + 1) (hp : p ∈ entries) :
    sizeOf p.2 ≤ N := by
  have h1 := List.sizeOf_lt_of_mem hp
  have h2 : sizeOf (JsonValue.obj entries) = 1 + sizeOf entries := by
    simp [JsonValue.obj.sizeOf_spec]
  cases p with
  | mk k v =>
    have h3 : sizeOf ((k, v) : String × JsonValue) = 1 + sizeOf k + sizeOf v := by
      simp
    simp only at h1 ⊢
    omega

theorem slice_agree (e e₂ : Finset String) (pg lim maxD : Nat) :
    ∀ (l : List JsonValue) (d : Nat) (np : String),
      (∀ x ∈ l, ∀ (key : String) (d : Nat) (np : String),
        (∀ s ∈ testedPaths e pg lim x key d maxD np, (s ∈ e₂ ↔ s ∈ e)) →
        convertToHierarchy e₂ pg lim x key d maxD np =
          convertToHierarchy e pg lim x key d maxD np) →
      ∀ skip count idx,
        (∀ s ∈ testedSlice e pg lim l skip count idx d maxD np,
          (s ∈ e₂ ↔ s ∈ e)) →
        convertSlice e₂ pg lim l skip count idx d maxD np =
          convertSlice e pg lim l skip count idx d maxD np := by
  intro l
  induction l with
  | nil => intro d np _ skip count idx _; rfl
  | cons x xs ih =>
    intro d np IH skip count idx hagr
    have IHxs : ∀ y ∈ xs, ∀ (key : String) (d : Nat) (np : String),
        (∀ s ∈ testedPaths e pg lim y key d maxD np, (s ∈ e₂ ↔ s ∈ e)) →
        convertToHierarchy e₂ pg lim y key d maxD np =
          convertToHierarchy e pg lim y key d maxD np :=
      fun y hy => IH y (List.mem_cons_of_mem _ hy)
    cases skip with
    | succ skip =>
      simp only [convertSlice]
      exact ih d np IHxs skip count idx hagr
    | zero =>
      cases count with
      | zero => rfl
      | succ count =>
        simp only [convertSlice]
        have hhead :
            convertToHierarchy e₂ pg lim x (toString idx) d maxD np =
              convertToHierarchy e pg lim x (toString idx) d maxD np := by
          refine IH x (List.mem_cons_self x xs) (toString idx) d np ?_
          intro s hs
          refine hagr s ?_
          simp only [testedSlice]
          exact List.mem_append_left _ hs
        have htail :
            convertSlice e₂ pg lim xs 0 count (idx + 1) d maxD np =
              convertSlice e pg lim xs 0 count (idx + 1) d maxD np := by
          refine ih d np IHxs 0 count (idx + 1) ?_
          intro s hs
          refine hagr s ?_
          simp only [testedSlice]
          exact List.mem_append_right _ hs
        rw [hhead, htail]

theorem entries_agree (e e₂ : Finset String) (pg lim maxD : Nat) :
    ∀ (l : List (String × JsonValue)) (d : Nat) (np : String),
      (∀ p ∈ l, ∀ (d : Nat) (np : String),
        (∀ s ∈ testedPaths e pg lim p.2 p.1 d maxD np, (s ∈ e₂ ↔ s ∈ e)) →
        convertToHierarchy e₂ pg lim p.2 p.1 d maxD np =
          convertToHierarchy e pg lim p.2 p.1 d maxD np) →
      ∀ limit,
        (∀ s ∈ testedEntries e pg lim l limit d maxD np, (s ∈ e₂ ↔ s ∈ e)) →
        convertEntries e₂ pg lim l limit d maxD np =
          convertEntries e pg lim l limit d maxD np := by
  intro l
  induction l with
  | nil => intro d np _ limit _; rfl
  | cons p xs ih =>
    intro d np IH limit hagr
    have IHxs : ∀ q ∈ xs, ∀ (d : Nat) (np : String),
        (∀ s ∈ testedPaths e pg lim q.2 q.1 d maxD np, (s ∈ e₂ ↔ s ∈ e)) →
        convertToHierarchy e₂ pg lim q.2 q.1 d maxD np =
          convertToHierarchy e pg lim q.2 q.1 d maxD np :=
      fun q hq => IH q (List.mem_cons_of_mem _ hq)
    cases limit with
    | zero => rfl
    | succ limit =>
      cases p with
      | mk k v =>
        simp only [convertEntries]
        have hhead :
            convertToHierarchy e₂ pg lim v k d maxD np =
              convertToHierarchy e pg lim v k d maxD np := by
          refine IH (k, v) (List.mem_cons_self _ xs) d np ?_
          intro s hs
          refine hagr s ?_
          simp only [testedEntries]
          exact List.mem_append_left _ hs
        have htail :
            convertEntries e₂ pg lim xs limit d maxD np =
              convertEntries e pg lim xs limit d maxD np := by
          refine ih d np IHxs limit ?_
          intro s hs
          refine hagr s ?_
          simp only [testedEntries]
          exact List.mem_append_right _ hs
        rw [hhead, htail]

theorem convert_agree (pg lim maxD : Nat) (e e₂ : Finset String) :
    ∀ (N : Nat) (v : JsonValue), sizeOf v ≤ N →
      ∀ (key : String) (d : Nat) (np : String),
        (∀ s ∈ testedPaths e pg lim v key d maxD np, (s ∈ e₂ ↔ s ∈ e)) →
        convertToHierarchy e₂ pg lim v key d maxD np =
          convertToHierarchy e pg lim v key d maxD np := by
  intro N
  induction N with
  | zero =>
    intro v hv
    exfalso
    cases v <;> simp at hv
  | succ N ihN =>
    intro v hv key d np hagr
    cases v with
    | null => rfl
    | bool b => rfl
    | num n => rfl
    | str s => rfl
    | arr items =>
      have IH : ∀ x ∈ items, ∀ (key : String) (d : Nat) (np : String),
          (∀ s ∈ testedPaths e pg lim x key d maxD np, (s ∈ e₂ ↔ s ∈ e)) →
          convertToHierarchy e₂ pg lim x key d maxD np =
            convertToHierarchy e pg lim x key d maxD np :=
        fun x hx => ihN x (sizeOf_mem_arr_le hv hx)
      by_cases hd : maxD ≤ d
      · have hcur : (curPath np key ∈ e₂ ↔ curPath np key ∈ e) := by
          refine hagr _ ?_
          simp only [testedPaths, if_pos hd]
          split <;> simp
        by_cases hce : curPath np key ∈ e
        · have hmem₂ : curPath np key ∈ e₂ := hcur.mpr hce
          simp only [convertToHierarchy]
          rw [if_neg (fun h => h.1 hmem₂), if_neg (fun h => h.1 hce)]
          have hs : convertSlice e₂ pg lim items
              (sliceSkip pg items.length) (sliceCount items.length) 0 (d + 1)
              maxD (curPath np key) =
            convertSlice e pg lim items (sliceSkip pg items.length)
              (sliceCount items.length) 0 (d + 1) maxD (curPath np key) := by
            refine slice_agree e e₂ pg lim maxD items (d + 1)
              (curPath np key) IH _ _ 0 ?_
            intro s hs
            refine hagr s ?_
            simp only [testedPaths, if_pos hd, if_pos hce]
            exact List.mem_cons_of_mem _ hs
          rw [hs]
        · have hce₂ : curPath np key ∉ e₂ := fun h => hce (hcur.mp h)
          simp only [convertToHierarchy]
          rw [if_pos ⟨hce₂, hd⟩, if_pos ⟨hce, hd⟩]
      · simp only [convertToHierarchy]
        rw [if_neg (fun h => hd h.2), if_neg (fun h => hd h.2)]
        have hs : convertSlice e₂ pg lim items
            (sliceSkip pg items.length) (sliceCount items.length) 0 (d + 1)
            maxD (curPath np key) =
          convertSlice e pg lim items (sliceSkip pg items.length)
            (sliceCount items.length) 0 (d + 1) maxD (curPath np key) := by
          refine slice_agree e e₂ pg lim maxD items (d + 1)
            (curPath np key) IH _ _ 0 ?_
          intro s hs
          refine hagr s ?_
          simp only [testedPaths, if_neg hd]
          exact hs
        rw [hs]
    | obj entries =>
      have IH : ∀ p ∈ entries, ∀ (d : Nat) (np : String),
          (∀ s ∈ testedPaths e pg lim p.2 p.1 d maxD np, (s ∈ e₂ ↔ s ∈ e)) →
          convertToHierarchy e₂ pg lim p.2 p.1 d maxD np =
            convertToHierarchy e pg lim p.2 p.1 d maxD np :=
        fun p hp => ihN p.2 (sizeOf_mem_obj_le hv hp) p.1
      by_cases hd : maxD ≤ d
      · have hcur : (curPath np key ∈ e₂ ↔ curPath np key ∈ e) := by
          refine hagr _ ?_
          simp only [testedPaths, if_pos hd]
          split <;> simp
        by_cases hce : curPath np key ∈ e
        · have hmem₂ : curPath np key ∈ e₂ := hcur.mpr hce
          simp only [convertToHierarchy]
          rw [if_neg (fun h => h.1 hmem₂), if_neg (fun h => h.1 hce)]
          have hs : convertEntries e₂ pg lim entries lim (d + 1) maxD
              (curPath np key) =
            convertEntries e pg lim entries lim (d + 1) maxD
              (curPath np key) := by
            refine entries_agree e e₂ pg lim maxD entries (d + 1)
              (curPath np key) IH lim ?_
            intro s hs
            refine hagr s ?_
            simp only [testedPaths, if_pos hd, if_pos hce]
            exact List.mem_cons_of_mem _ hs
          rw [hs]
        · have hce₂ : curPath np key ∉ e₂ := fun h => hce (hcur.mp h)
          simp only [convertToHierarchy]
          rw [if_pos ⟨hce₂, hd⟩, if_pos ⟨hce, hd⟩]
      · simp only [convertToHierarchy]
        rw [if_neg (fun h => hd h.2), if_neg (fun h => hd h.2)]
        have hs : convertEntries e₂ pg lim entries lim (d + 1) maxD
            (curPath np key) =
          convertEntries e pg lim entries lim (d + 1) maxD
            (curPath np key) := by
          refine entries_agree e e₂ pg lim maxD entries (d + 1)
            (curPath np key) IH lim ?_
          intro s hs
          refine hagr s ?_
          simp only [testedPaths, if_neg hd]
          exact hs
        rw [hs]

/-- Claim C2: a container reached at `depth ≥ maxDepth` whose path is not in
the expanded set becomes a collapsed placeholder — no children,
`collapsed = true`, `originalData` the raw value, and the summary value
`Array[N items]` or `Object{K props}` — and the expanded set can influence
the output only through membership of the container paths tested at that
boundary: two expanded sets agreeing on all tested paths build identical
trees. -/
theorem c2_collapse_boundary :
    (∀ (e : Finset String) (pg lim : Nat) (v : JsonValue) (key : String)
        (d maxD : Nat) (np : String),
      isScalarOrNull v = false → maxD ≤ d → curPath np key ∉ e →
      convertToHierarchy e pg lim v key d maxD np =
        .mk (curPath np key) key (some (collapsedSummary v)) none (some v)
          (some true)) ∧
    (∀ (e e₂ : Finset String) (pg lim : Nat) (v : JsonValue) (key : String)
        (d maxD : Nat) (np : String),
      (∀ s ∈ testedPaths e pg lim v key d maxD np, (s ∈ e₂ ↔ s ∈ e)) →
      convertToHierarchy e₂ pg lim v key d maxD np =
        convertToHierarchy e pg lim v key d maxD np) := by
  constructor
  · intro e pg lim v key d maxD np hns hd hne
    cases v with
    | null => simp [isScalarOrNull] at hns
    | bool b => simp [isScalarOrNull] at hns
    | num n => simp [isScalarOrNull] at hns
    | str s => simp [isScalarOrNull] at hns
    | arr items =>
      simp only [convertToHierarchy]
      rw [if_pos ⟨hne, hd⟩]
    | obj entries =>
      simp only [convertToHierarchy]
      rw [if_pos ⟨hne, hd⟩]
  · intro e e₂ pg lim v key d maxD np hagr
    exact convert_agree pg lim maxD e e₂ (sizeOf v) v le_rfl key d np hagr

theorem c2_witness :
    convertToHierarchy ∅ 0 200 (.obj [("a", .num 1)]) "k" 2 2 "x" =
      .mk (curPath "x" "k") "k"
        (some (collapsedSummary (.obj [("a", .num 1)]))) none
        (some (.obj [("a", .num 1)])) (some true) ∧
    convertToHierarchy (insert "zzz" ∅) 0 200
        (.obj [("a", .obj [("b", .num 1)])]) "root" 0 1 "" =
      convertToHierarchy ∅ 0 200 (.obj [("a", .obj [("b", .num 1)])])
        "root" 0 1 "" :=
  ⟨c2_collapse_boundary.1 ∅ 0 200 (.obj [("a", .num 1)]) "k" 2 2 "x"
      (by decide) (by decide) (by decide),
   c2_collapse_boundary.2 ∅ (insert "zzz" ∅) 0 200
      (.obj [("a", .obj [("b", .num 1)])]) "root" 0 1 "" (by decide)⟩

/-! ## Node-count bounds for one builder invocation -/

theorem one_le_length_of_ne_empty (s : String) (h : s ≠ "") : 1 ≤ s.length := by
  rcases s with ⟨data⟩
  cases data with
  | nil => exact absurd rfl h
  | cons c cs => simp [String.length]

theorem curPath_of_ne (c k : String) (h : c ≠ "") :
    curPath c k = c ++ "-" ++ k := by
  unfold curPath
  rw [if_neg h]

theorem chainPath_ne_empty (i : Nat) : chainPath i ≠ "" := by
  cases i with
  | zero => decide
  | succ j =>
    intro h
    have h2 := congrArg String.length h
    rw [show chainPath (j + 1) = chainPath j ++ "-" ++ "a" from rfl,
      String.length_append, String.length_append] at h2
    have e1 : ("-" : String).length = 1 := rfl
    have e2 : ("a" : String).length = 1 := rfl
    have e3 : ("" : String).length = 0 := rfl
    omega

theorem chainPath_mem (n i : Nat) (h : i ≤ n) :
    chainPath i ∈ chainExpanded n := by
  simp only [chainExpanded, List.mem_toFinset, List.mem_map]
  exact ⟨i, List.mem_range.mpr (by omega), rfl⟩

theorem curPath_chain (i : Nat) :
    curPath (chainPath i) "a" = chainPath (i + 1) := by
  rw [curPath_of_ne _ _ (chainPath_ne_empty i)]
  rfl

theorem chain_size_ge (n : Nat) :
    ∀ (k i d : Nat), i + k ≤ n →
      k + 1 ≤ displaySize (convertToHierarchy (chainExpanded n) 0 200
        (chain k) "a" d 0 (chainPath i)) := by
  intro k
  induction k with
  | zero =>
    intro i d h
    simp [chain, convertToHierarchy, displaySize]
  | succ k ih =>
    intro i d h
    have hmem : chainPath (i + 1) ∈ chainExpanded n :=
      chainPath_mem n (i + 1) (by omega)
    simp only [chain, convertToHierarchy]
    rw [curPath_chain i, if_neg (fun hcol => hcol.1 hmem)]
    rw [convertEntries_eq]
    rw [List.take_of_length_le (by simp)]
    simp only [List.map_cons, List.map_nil]
    simp only [displaySize, displaySizeList]
    have hrec := ih (i + 1) (d + 1) (by omega)
    omega

theorem chain_root_size (n : Nat) (hn : 1 ≤ n) :
    n + 1 ≤ displaySize (convertToHierarchy (chainExpanded n) 0 200 (chain n)
      "root" 0 0 "") := by
  obtain ⟨m, rfl⟩ : ∃ m, n = m + 1 := ⟨n - 1, by omega⟩
  have hmem : chainPath 0 ∈ chainExpanded (m + 1) :=
    chainPath_mem (m + 1) 0 (by omega)
  have hcur : curPath "" "root" = chainPath 0 := rfl
  simp only [chain, convertToHierarchy]
  rw [hcur, if_neg (fun hcol => hcol.1 hmem)]
  rw [convertEntries_eq]
  rw [List.take_of_length_le (by simp)]
  simp only [List.map_cons, List.map_nil]
  simp only [displaySize, displaySizeList]
  have hrec := chain_size_ge (m + 1) m 0 (0 + 1) (by omega)
  omega

/-- Claim C1, counterexample: no function of the depth limit and the budget
alone bounds the node count of one build — with a deep chain of expanded
paths, the tree grows with the input even at `maxDepth = 0` and a fixed
budget, so the bound must also depend on the expanded set. -/
theorem c1_counterexample :
    ¬ ∃ f : Nat → Nat → Nat,
      ∀ (v : JsonValue) (e : Finset String) (pg lim maxD : Nat),
        displaySize (convertToHierarchy e pg lim v "root" 0 maxD "") ≤
          f maxD lim := by
  rintro ⟨f, hf⟩
  have h1 := chain_root_size (f 0 200 + 1) (by omega)
  have h2 := hf (chain (f 0 200 + 1)) (chainExpanded (f 0 200 + 1)) 0 200 0
  omega

theorem displaySizeList_slice_le (e : Finset String) (pg lim C : Nat) :
    ∀ (l : List JsonValue) (d maxD : Nat) (np : String),
      (∀ x ∈ l, ∀ key : String,
        displaySize (convertToHierarchy e pg lim x key d maxD np) ≤ C) →
      ∀ skip count idx,
        displaySizeList (convertSlice e pg lim l skip count idx d maxD np) ≤
          count * C := by
  intro l
  induction l with
  | nil =>
    intro d maxD np _ skip count idx
    simp [convertSlice, displaySizeList]
  | cons x xs ih =>
    intro d maxD np IH skip count idx
    have IHxs := fun y hy => IH y (List.mem_cons_of_mem _ hy)
    cases skip with
    | succ skip =>
      simp only [convertSlice]
      exact ih d maxD np IHxs skip count idx
    | zero =>
      cases count with
      | zero => simp [convertSlice, displaySizeList]
      | succ count =>
        simp only [convertSlice, displaySizeList]
        have h1 := IH x (List.mem_cons_self x xs) (toString idx)
        have h2 := ih d maxD np IHxs 0 count (idx + 1)
        have h3 : (count + 1) * C = count * C + C := by ring
        omega

theorem displaySizeList_entries_le (e : Finset String) (pg lim C : Nat) :
    ∀ (l : List (String × JsonValue)) (d maxD : Nat) (np : String),
      (∀ p ∈ l, displaySize (convertToHierarchy e pg lim p.2 p.1 d maxD np) ≤ C) →
      ∀ limit,
        displaySizeList (convertEntries e pg lim l limit d maxD np) ≤
          limit * C := by
  intro l
  induction l with
  | nil =>
    intro d maxD np _ limit
    simp [convertEntries, displaySizeList]
  | cons p xs ih =>
    intro d maxD np IH limit
    have IHxs := fun q hq => IH q (List.mem_cons_of_mem _ hq)
    cases limit with
    | zero => simp [convertEntries, displaySizeList]
    | succ limit =>
      cases p with
      | mk k v =>
        simp only [convertEntries, displaySizeList]
        have h1 : displaySize (convertToHierarchy e pg lim v k d maxD np) ≤ C :=
          IH (k, v) (List.mem_cons_self _ xs)
        have h2 := ih d maxD np IHxs limit
        have h3 : (limit + 1) * C = limit * C + C := by ring
        omega

theorem convert_size_le (pg lim maxD M B : Nat) (e : Finset String)
    (hB : 20 ≤ B) (hlim : lim ≤ B) (hM : ∀ s ∈ e, s.length ≤ M) :
    ∀ (N : Nat) (v : JsonValue), sizeOf v ≤ N →
      ∀ (key : String) (d : Nat) (np : String), curPath np key ≠ "" →
        displaySize (convertToHierarchy e pg lim v key d maxD np) ≤
          (B + 1) ^ (maxD - d + (M + 1 - (curPath np key).length)) := by
  intro N
  induction N with
  | zero =>
    intro v hv
    exfalso
    cases v <;> simp at hv
  | succ N ihN =>
    intro v hv key d np hne
    have hone : (1 : Nat) ≤ (B + 1) ^ (maxD - d + (M + 1 - (curPath np key).length)) :=
      Nat.one_le_pow _ _ (by omega)
    have hlen : 1 ≤ (curPath np key).length := one_le_length_of_ne_empty _ hne
    have hchild : ∀ k : String,
        (curPath (curPath np key) k).length =
          (curPath np key).length + 1 + k.length := by
      intro k
      rw [curPath_of_ne _ _ hne, String.length_append, String.length_append]
      have e1 : ("-" : String).length = 1 := rfl
      omega
    have hchild_ne : ∀ k : String, curPath (curPath np key) k ≠ "" := by
      intro k hk
      have h2 := congrArg String.length hk
      rw [hchild k] at h2
      have e3 : ("" : String).length = 0 := rfl
      omega
    cases v with
    | null => exact hone
    | bool b => exact hone
    | num n => exact hone
    | str s => exact hone
    | arr items =>
      by_cases hcol : curPath np key ∉ e ∧ maxD ≤ d
      · simp only [convertToHierarchy]
        rw [if_pos hcol]
        simp only [displaySize]
        exact hone
      · have hμpos : 1 ≤ maxD - d + (M + 1 - (curPath np key).length) := by
          rcases Nat.lt_or_ge d maxD with h | h
          · omega
          · have hcure : curPath np key ∈ e := by
              by_contra hc
              exact hcol ⟨hc, h⟩
            have := hM _ hcure
            omega
        have hexp : ∀ k : String,
            maxD - (d + 1) + (M + 1 - (curPath (curPath np key) k).length) ≤
              maxD - d + (M + 1 - (curPath np key).length) - 1 := by
          intro k
          have := hchild k
          rcases Nat.lt_or_ge d maxD with h | h
          · omega
          · have hcure : curPath np key ∈ e := by
              by_contra hc
              exact hcol ⟨hc, h⟩
            have := hM _ hcure
            omega
        have hC : ∀ x ∈ items, ∀ k : String,
            displaySize (convertToHierarchy e pg lim x k (d + 1) maxD
              (curPath np key)) ≤
              (B + 1) ^ (maxD - d + (M + 1 - (curPath np key).length) - 1) := by
          intro x hx k
          refine le_trans
            (ihN x (sizeOf_mem_arr_le hv hx) k (d + 1) (curPath np key)
              (hchild_ne k))
            (Nat.pow_le_pow_right (by omega) (hexp k))
        have hsum := displaySizeList_slice_le e pg lim
          ((B + 1) ^ (maxD - d + (M + 1 - (curPath np key).length) - 1))
          items (d + 1) maxD (curPath np key) hC
          (sliceSkip pg items.length) (sliceCount items.length) 0
        have hcnt : sliceCount items.length ≤ B := by
          unfold sliceCount
          split <;> omega
        have hmul : sliceCount items.length *
            (B + 1) ^ (maxD - d + (M + 1 - (curPath np key).length) - 1) ≤
            B * (B + 1) ^ (maxD - d + (M + 1 - (curPath np key).length) - 1) :=
          Nat.mul_le_mul_right _ hcnt
        have honeP : 1 ≤ (B + 1) ^ (maxD - d + (M + 1 - (curPath np key).length) - 1) :=
          Nat.one_le_pow _ _ (by omega)
        have hpow : (B + 1) ^ (maxD - d + (M + 1 - (curPath np key).length)) =
            (B + 1) ^ (maxD - d + (M + 1 - (curPath np key).length) - 1) * (B + 1) := by
          conv_lhs => rw [show maxD - d + (M + 1 - (curPath np key).length) =
            (maxD - d + (M + 1 - (curPath np key).length) - 1) + 1 by omega]
          rw [pow_succ]
        simp only [convertToHierarchy]
        rw [if_neg hcol]
        simp only [displaySize]
        calc 1 + displaySizeList (convertSlice e pg lim items
              (sliceSkip pg items.length) (sliceCount items.length) 0 (d + 1)
              maxD (curPath np key)) ≤
            1 + B * (B + 1) ^ (maxD - d + (M + 1 - (curPath np key).length) - 1) :=
              Nat.add_le_add_left (le_trans hsum hmul) 1
          _ ≤ (B + 1) ^ (maxD - d + (M + 1 - (curPath np key).length) - 1) +
              B * (B + 1) ^ (maxD - d + (M + 1 - (curPath np key).length) - 1) :=
              Nat.add_le_add_right honeP _
          _ = (B + 1) ^ (maxD - d + (M + 1 - (curPath np key).length) - 1) * (B + 1) := by
              ring
          _ = (B + 1) ^ (maxD - d + (M + 1 - (curPath np key).length)) := hpow.symm
    | obj entries =>
      by_cases hcol : curPath np key ∉ e ∧ maxD ≤ d
      · simp only [convertToHierarchy]
        rw [if_pos hcol]
        simp only [displaySize]
        exact hone
      · have hμpos : 1 ≤ maxD - d + (M + 1 - (curPath np key).length) := by
          rcases Nat.lt_or_ge d maxD with h | h
          · omega
          · have hcure : curPath np key ∈ e := by
              by_contra hc
              exact hcol ⟨hc, h⟩
            have := hM _ hcure
            omega
        have hexp : ∀ k : String,
            maxD - (d + 1) + (M + 1 - (curPath (curPath np key) k).length) ≤
              maxD - d + (M + 1 - (curPath np key).length) - 1 := by
          intro k
          have := hchild k
          rcases Nat.lt_or_ge d maxD with h | h
          · omega
          · have hcure : curPath np key ∈ e := by
              by_contra hc
              exact hcol ⟨hc, h⟩
            have := hM _ hcure
            omega
        have hC : ∀ p ∈ entries,
            displaySize (convertToHierarchy e pg lim p.2 p.1 (d + 1) maxD
              (curPath np key)) ≤
              (B + 1) ^ (maxD - d + (M + 1 - (curPath np key).length) - 1) := by
          intro p hp
          refine le_trans
            (ihN p.2 (sizeOf_mem_obj_le hv hp) p.1 (d + 1) (curPath np key)
              (hchild_ne p.1))
            (Nat.pow_le_pow_right (by omega) (hexp p.1))
        have hsum := displaySizeList_entries_le e pg lim
          ((B + 1) ^ (maxD - d + (M + 1 - (curPath np key).length) - 1))
          entries (d + 1) maxD (curPath np key) hC lim
        have hmul : lim *
            (B + 1) ^ (maxD - d + (M + 1 - (curPath np key).length) - 1) ≤
            B * (B + 1) ^ (maxD - d + (M + 1 - (curPath np key).length) - 1) :=
          Nat.mul_le_mul_right _ hlim
        have honeP : 1 ≤ (B + 1) ^ (maxD - d + (M + 1 - (curPath np key).length) - 1) :=
          Nat.one_le_pow _ _ (by omega)
        have hpow : (B + 1) ^ (maxD - d + (M + 1 - (curPath np key).length)) =
            (B + 1) ^ (maxD - d + (M + 1 - (curPath np key).length) - 1) * (B + 1) := by
          conv_lhs => rw [show maxD - d + (M + 1 - (curPath np key).length) =
            (maxD - d + (M + 1 - (curPath np key).length) - 1) + 1 by omega]
          rw [pow_succ]
        simp only [convertToHierarchy]
        rw [if_neg hcol]
        simp only [displaySize]
        calc 1 + displaySizeList (convertEntries e pg lim entries lim (d + 1)
              maxD (curPath np key)) ≤
            1 + B * (B + 1) ^ (maxD - d + (M + 1 - (curPath np key).length) - 1) :=
              Nat.add_le_add_left (le_trans hsum hmul) 1
          _ ≤ (B + 1) ^ (maxD - d + (M + 1 - (curPath np key).length) - 1) +
              B * (B + 1) ^ (maxD - d + (M + 1 - (curPath np key).length) - 1) :=
              Nat.add_le_add_right honeP _
          _ = (B + 1) ^ (maxD - d + (M + 1 - (curPath np key).length) - 1) * (B + 1) := by
              ring
          _ = (B + 1) ^ (maxD - d + (M + 1 - (curPath np key).length)) := hpow.symm

/-- Claim C1 (amended): the node count of one build invocation is finite and
bounded by a computable function of the depth limit, the budget, and the
expanded-path set (through the longest expanded path) — independent of the
size of the input value.  The counterexample shows the dependence on the
expanded set cannot be dropped. -/
theorem c1_amended_bound :
    ∀ (v : JsonValue) (e : Finset String) (pg lim maxD : Nat),
      displaySize (convertToHierarchy e pg lim v "root" 0 maxD "") ≤
        (max 20 lim + 1) ^ (maxD + e.sup String.length + 1) := by
  intro v e pg lim maxD
  have hM : ∀ s ∈ e, s.length ≤ e.sup String.length :=
    fun s hs => Finset.le_sup hs
  have h := convert_size_le pg lim maxD (e.sup String.length) (max 20 lim) e
    (le_max_left _ _) (le_max_right _ _) hM (sizeOf v) v le_rfl "root" 0 ""
    (by decide)
  refine le_trans h (Nat.pow_le_pow_right (by omega) ?_)
  have h4 : (curPath "" "root").length = 4 := rfl
  omega

/-! ## Distinctness of node paths -/

theorem dashFree_forall (k : String) (h : dashFree k = true) :
    ∀ c ∈ k.data, c ≠ '-' := by
  intro c hc
  have h2 := List.all_eq_true.mp h c hc
  simpa using h2

theorem sep_cancel :
    ∀ (k1 k2 t1 t2 : List Char),
      (∀ c ∈ k1, c ≠ '-') → (∀ c ∈ k2, c ≠ '-') →
      (t1 = [] ∨ ∃ u, t1 = '-' :: u) → (t2 = [] ∨ ∃ u, t2 = '-' :: u) →
      k1 ++ t1 = k2 ++ t2 → k1 = k2 := by
  intro k1
  induction k1 with
  | nil =>
    intro k2 t1 t2 h1 h2 ht1 ht2 heq
    cases k2 with
    | nil => rfl
    | cons c k2' =>
      exfalso
      simp only [List.nil_append, List.cons_append] at heq
      rcases ht1 with rfl | ⟨u, rfl⟩
      · simp at heq
      · have hc : '-' = c := by
          injection heq
        exact h2 c (List.mem_cons_self c k2') hc.symm
  | cons c1 k1' ih =>
    intro k2 t1 t2 h1 h2 ht1 ht2 heq
    cases k2 with
    | nil =>
      exfalso
      simp only [List.nil_append, List.cons_append] at heq
      rcases ht2 with rfl | ⟨u, rfl⟩
      · simp at heq
      · have hc : c1 = '-' := by
          injection heq
        exact h1 c1 (List.mem_cons_self c1 k1') hc
    | cons c2 k2' =>
      simp only [List.cons_append] at heq
      have hc : c1 = c2 := by injection heq
      have hrest : k1' ++ t1 = k2' ++ t2 := by injection heq
      subst hc
      rw [ih k2' t1 t2 (fun c hc => h1 c (List.mem_cons_of_mem _ hc))
        (fun c hc => h2 c (List.mem_cons_of_mem _ hc)) ht1 ht2 hrest]

theorem idext_data (cur k id : String) (hcur : cur ≠ "")
    (h : IdExt (curPath cur k) id) :
    ∃ u, id.data = cur.data ++ '-' :: u := by
  obtain ⟨t, ht, _⟩ := h
  refine ⟨k.data ++ t, ?_⟩
  rw [ht, curPath_of_ne _ _ hcur, String.data_append, String.data_append]
  have hdash : ("-" : String).data = ['-'] := rfl
  rw [hdash]
  simp

theorem idext_of_data (cur id : String) (u : List Char)
    (h : id.data = cur.data ++ '-' :: u) : IdExt cur id :=
  ⟨'-' :: u, h, Or.inr ⟨u, rfl⟩⟩

theorem ne_of_data_ext (cur id : String) (u : List Char)
    (h : id.data = cur.data ++ '-' :: u) : id ≠ cur := by
  intro he
  subst he
  have h2 := congrArg List.length h
  simp at h2

theorem idext_inj (cur k1 k2 : String) (hcur : cur ≠ "")
    (h1 : dashFree k1 = true) (h2 : dashFree k2 = true) (id : String)
    (e1 : IdExt (curPath cur k1) id) (e2 : IdExt (curPath cur k2) id) :
    k1 = k2 := by
  obtain ⟨t1, ht1, hs1⟩ := e1
  obtain ⟨t2, ht2, hs2⟩ := e2
  rw [curPath_of_ne _ _ hcur, String.data_append, String.data_append] at ht1 ht2
  have hdash : ("-" : String).data = ['-'] := rfl
  rw [hdash] at ht1 ht2
  have key : k1.data ++ t1 = k2.data ++ t2 := by
    have h3 := ht1.symm.trans ht2
    simp only [List.append_assoc] at h3
    exact List.append_cancel_left (List.append_cancel_left h3)
  have hk : k1.data = k2.data :=
    sep_cancel _ _ _ _ (dashFree_forall k1 h1) (dashFree_forall k2 h2) hs1 hs2 key
  cases k1
  cases k2
  exact congrArg String.mk hk

theorem natToStr_inj20 :
    ∀ a, a < 20 → ∀ b, b < 20 → toString a = toString b → a = b := by
  decide

theorem natToStr_dashFree20 : ∀ a, a < 20 → dashFree (toString a) = true := by
  decide

theorem goodKeysList_mem :
    ∀ (l : List JsonValue), goodKeysList l = true →
      ∀ x ∈ l, goodKeys x = true := by
  intro l
  induction l with
  | nil => intro _ x hx; simp at hx
  | cons y ys ih =>
    intro h x hx
    rw [goodKeysList, Bool.and_eq_true] at h
    rcases List.mem_cons.mp hx with rfl | hx'
    · exact h.1
    · exact ih h.2 x hx'

theorem goodKeysEntries_mem :
    ∀ (l : List (String × JsonValue)), goodKeysEntries l = true →
      ∀ p ∈ l, goodKeys p.2 = true := by
  intro l
  induction l with
  | nil => intro _ p hp; simp at hp
  | cons q qs ih =>
    intro h p hp
    cases q with
    | mk k v =>
      rw [goodKeysEntries, Bool.and_eq_true] at h
      rcases List.mem_cons.mp hp with rfl | hp'
      · exact h.1
      · exact ih h.2 p hp'

theorem slice_ids (e : Finset String) (pg lim maxD d : Nat) (cur : String)
    (hcur : cur ≠ "") :
    ∀ (l : List JsonValue),
      (∀ x ∈ l, ∀ k : String,
        (∀ id ∈ collectIds (convertToHierarchy e pg lim x k (d + 1) maxD cur),
          IdExt (curPath cur k) id) ∧
        (collectIds (convertToHierarchy e pg lim x k (d + 1) maxD cur)).Nodup) →
      ∀ skip count idx, idx + count ≤ 20 →
        (∀ id ∈ collectIdsList
            (convertSlice e pg lim l skip count idx (d + 1) maxD cur),
          ∃ j, idx ≤ j ∧ j < 20 ∧ IdExt (curPath cur (toString j)) id) ∧
        (collectIdsList
          (convertSlice e pg lim l skip count idx (d + 1) maxD cur)).Nodup := by
  intro l
  induction l with
  | nil =>
    intro _ skip count idx _
    refine ⟨fun id hid => ?_, by simp [convertSlice, collectIdsList]⟩
    simp [convertSlice, collectIdsList] at hid
  | cons x xs ih =>
    intro SUB skip count idx hcnt
    have SUBxs := fun y hy => SUB y (List.mem_cons_of_mem _ hy)
    cases skip with
    | succ skip =>
      simp only [convertSlice]
      exact ih SUBxs skip count idx hcnt
    | zero =>
      cases count with
      | zero =>
        refine ⟨fun id hid => ?_, by simp [convertSlice, collectIdsList]⟩
        simp [convertSlice, collectIdsList] at hid
      | succ count =>
        simp only [convertSlice, collectIdsList]
        have hhead := SUB x (List.mem_cons_self x xs) (toString idx)
        have htail := ih SUBxs 0 count (idx + 1) (by omega)
        constructor
        · intro id hid
          rcases List.mem_append.mp hid with hid' | hid'
          · exact ⟨idx, le_rfl, by omega, hhead.1 id hid'⟩
          · obtain ⟨j, hj1, hj2, hj3⟩ := htail.1 id hid'
            exact ⟨j, by omega, hj2, hj3⟩
        · rw [List.nodup_append]
          refine ⟨hhead.2, htail.2, ?_⟩
          intro id hid1 hid2
          obtain ⟨j, hj1, hj2, hj3⟩ := htail.1 id hid2
          have hk := idext_inj cur (toString idx) (toString j) hcur
            (natToStr_dashFree20 idx (by omega))
            (natToStr_dashFree20 j (by omega)) id (hhead.1 id hid1) hj3
          have := natToStr_inj20 idx (by omega) j (by omega) hk
          omega

theorem entries_ids (e : Finset String) (pg lim maxD d : Nat) (cur : String)
    (hcur : cur ≠ "") :
    ∀ (l : List (String × JsonValue)),
      (l.map Prod.fst).Nodup →
      (∀ p ∈ l, dashFree p.1 = true) →
      (∀ p ∈ l,
        (∀ id ∈ collectIds
            (convertToHierarchy e pg lim p.2 p.1 (d + 1) maxD cur),
          IdExt (curPath cur p.1) id) ∧
        (collectIds
          (convertToHierarchy e pg lim p.2 p.1 (d + 1) maxD cur)).Nodup) →
      ∀ limit,
        (∀ id ∈ collectIdsList
            (convertEntries e pg lim l limit (d + 1) maxD cur),
          ∃ p ∈ l, IdExt (curPath cur p.1) id) ∧
        (collectIdsList
          (convertEntries e pg lim l limit (d + 1) maxD cur)).Nodup := by
  intro l
  induction l with
  | nil =>
    intro _ _ _ limit
    refine ⟨fun id hid => ?_, by simp [convertEntries, collectIdsList]⟩
    simp [convertEntries, collectIdsList] at hid
  | cons q qs ih =>
    intro hND hDF SUB limit
    have hNDxs : (qs.map Prod.fst).Nodup := (List.nodup_cons.mp hND).2
    have hDFxs := fun p hp => hDF p (List.mem_cons_of_mem _ hp)
    have SUBxs := fun p hp => SUB p (List.mem_cons_of_mem _ hp)
    cases limit with
    | zero =>
      refine ⟨fun id hid => ?_, by simp [convertEntries, collectIdsList]⟩
      simp [convertEntries, collectIdsList] at hid
    | succ limit =>
      cases q with
      | mk k v =>
        simp only [convertEntries, collectIdsList]
        have hhead : (∀ id ∈ collectIds
              (convertToHierarchy e pg lim v k (d + 1) maxD cur),
            IdExt (curPath cur k) id) ∧
            (collectIds
              (convertToHierarchy e pg lim v k (d + 1) maxD cur)).Nodup :=
          SUB (k, v) (List.mem_cons_self _ qs)
        have htail := ih hNDxs hDFxs SUBxs limit
        constructor
        · intro id hid
          rcases List.mem_append.mp hid with hid' | hid'
          · exact ⟨(k, v), List.mem_cons_self _ qs, hhead.1 id hid'⟩
          · obtain ⟨p, hp1, hp2⟩ := htail.1 id hid'
            exact ⟨p, List.mem_cons_of_mem _ hp1, hp2⟩
        · rw [List.nodup_append]
          refine ⟨hhead.2, htail.2, ?_⟩
          intro id hid1 hid2
          obtain ⟨p, hp1, hp2⟩ := htail.1 id hid2
          have hk := idext_inj cur k p.1 hcur
            (hDF (k, v) (List.mem_cons_self _ qs))
            (hDF p (List.mem_cons_of_mem _ hp1)) id (hhead.1 id hid1) hp2
          have hmem : k ∈ qs.map Prod.fst :=
            hk ▸ List.mem_map.mpr ⟨p, hp1, rfl⟩
          exact (List.nodup_cons.mp hND).1 hmem

theorem convert_ids (pg lim maxD : Nat) (e : Finset String) :
    ∀ (N : Nat) (v : JsonValue), sizeOf v ≤ N →
      ∀ (key : String) (d : Nat) (np : String),
        goodKeys v = true → curPath np key ≠ "" →
        (∀ id ∈ collectIds (convertToHierarchy e pg lim v key d maxD np),
          IdExt (curPath np key) id) ∧
        (collectIds (convertToHierarchy e pg lim v key d maxD np)).Nodup := by
  intro N
  induction N with
  | zero =>
    intro v hv
    exfalso
    cases v <;> simp at hv
  | succ N ihN =>
    intro v hv key d np hgood hne
    have hchild_ne : ∀ k : String, curPath (curPath np key) k ≠ "" := by
      intro k hk
      have h2 := congrArg String.length hk
      rw [curPath_of_ne _ _ hne, String.length_append, String.length_append] at h2
      have e1 : ("-" : String).length = 1 := rfl
      have e3 : ("" : String).length = 0 := rfl
      omega
    have leafcase : ∀ (val : Option String) (od : Option JsonValue)
        (cb : Option Bool),
        (∀ id ∈ collectIds (.mk (curPath np key) key val none od cb),
          IdExt (curPath np key) id) ∧
        (collectIds
          (DisplayNode.mk (curPath np key) key val none od cb)).Nodup := by
      intro val od cb
      constructor
      · intro id hid
        simp only [collectIds, List.mem_singleton] at hid
        subst hid
        exact ⟨[], by simp, Or.inl rfl⟩
      · simp [collectIds]
    cases v with
    | null => exact leafcase _ _ _
    | bool b => exact leafcase _ _ _
    | num n => exact leafcase _ _ _
    | str s => exact leafcase _ _ _
    | arr items =>
      by_cases hcol : curPath np key ∉ e ∧ maxD ≤ d
      · simp only [convertToHierarchy]
        rw [if_pos hcol]
        exact leafcase _ _ _
      · simp only [convertToHierarchy]
        rw [if_neg hcol]
        have SUB : ∀ x ∈ items, ∀ k : String,
            (∀ id ∈ collectIds (convertToHierarchy e pg lim x k (d + 1) maxD
                (curPath np key)),
              IdExt (curPath (curPath np key) k) id) ∧
            (collectIds (convertToHierarchy e pg lim x k (d + 1) maxD
              (curPath np key))).Nodup := by
          intro x hx k
          exact ihN x (sizeOf_mem_arr_le hv hx) k (d + 1) (curPath np key)
            (goodKeysList_mem items hgood x hx) (hchild_ne k)
        have hslice := slice_ids e pg lim maxD d (curPath np key) hne items SUB
          (sliceSkip pg items.length) (sliceCount items.length) 0
          (by unfold sliceCount; split <;> omega)
        constructor
        · intro id hid
          simp only [collectIds] at hid
          rcases List.mem_cons.mp hid with rfl | hid'
          · exact ⟨[], by simp, Or.inl rfl⟩
          · obtain ⟨j, _, _, hext⟩ := hslice.1 id hid'
            obtain ⟨u, hu⟩ := idext_data _ _ _ hne hext
            exact idext_of_data _ _ u hu
        · simp only [collectIds]
          refine List.nodup_cons.mpr ⟨fun hmem => ?_, hslice.2⟩
          obtain ⟨j, _, _, hext⟩ := hslice.1 _ hmem
          obtain ⟨u, hu⟩ := idext_data _ _ _ hne hext
          exact ne_of_data_ext _ _ u hu rfl
    | obj entries =>
      simp only [goodKeys, Bool.and_eq_true, decide_eq_true_eq,
        List.all_eq_true] at hgood
      have hDF : ∀ p ∈ entries, dashFree p.1 = true :=
        fun p hp => hgood.1.2 p.1 (List.mem_map.mpr ⟨p, hp, rfl⟩)
      by_cases hcol : curPath np key ∉ e ∧ maxD ≤ d
      · simp only [convertToHierarchy]
        rw [if_pos hcol]
        exact leafcase _ _ _
      · simp only [convertToHierarchy]
        rw [if_neg hcol]
        have SUB : ∀ p ∈ entries,
            (∀ id ∈ collectIds (convertToHierarchy e pg lim p.2 p.1 (d + 1)
                maxD (curPath np key)),
              IdExt (curPath (curPath np key) p.1) id) ∧
            (collectIds (convertToHierarchy e pg lim p.2 p.1 (d + 1) maxD
              (curPath np key))).Nodup := by
          intro p hp
          exact ihN p.2 (sizeOf_mem_obj_le hv hp) p.1 (d + 1) (curPath np key)
            (goodKeysEntries_mem entries hgood.2 p hp) (hchild_ne p.1)
        have hentr := entries_ids e pg lim maxD d (curPath np key) hne entries
          hgood.1.1 hDF SUB lim
        constructor
        · intro id hid
          simp only [collectIds] at hid
          rcases List.mem_cons.mp hid with rfl | hid'
          · exact ⟨[], by simp, Or.inl rfl⟩
          · obtain ⟨p, _, hext⟩ := hentr.1 id hid'
            obtain ⟨u, hu⟩ := idext_data _ _ _ hne hext
            exact idext_of_data _ _ u hu
        · simp only [collectIds]
          refine List.nodup_cons.mpr ⟨fun hmem => ?_, hentr.2⟩
          obtain ⟨p, _, hext⟩ := hentr.1 _ hmem
          obtain ⟨u, hu⟩ := idext_data _ _ _ hne hext
          exact ne_of_data_ext _ _ u hu rfl

/-- Claim C4, counterexample: when an object key contains the path
separator `-`, two distinct positions can receive the same id — in
`{"a-b": 1, "a": {"b": 2}}` both the first property and the nested `b`
get id `root-a-b`, so the builder assigns duplicate paths. -/
theorem c4_counterexample :
    ¬ (collectIds (convertToHierarchy ∅ 0 200
        (.obj [("a-b", .num 1), ("a", .obj [("b", .num 2)])]) "root" 0 2
        "")).Nodup := by
  decide

/-- Claim C4 (amended): if every object key in the value is free of the
separator character `-` (key distinctness within an object being automatic
for JavaScript objects), the builder assigns pairwise-distinct ids to the
nodes of one build; path stability across rebuilds with identical input and
user state holds definitionally, the builder being a pure function of
`(value, expanded, page, budget)`. -/
theorem c4_amended_distinct_paths :
    ∀ (v : JsonValue) (e : Finset String) (pg lim maxD : Nat),
      goodKeys v = true →
      (collectIds (convertToHierarchy e pg lim v "root" 0 maxD "")).Nodup :=
  fun v e pg lim maxD hgood =>
    (convert_ids pg lim maxD e (sizeOf v) v le_rfl "root" 0 "" hgood
      (by decide)).2

theorem c4_witness :
    (collectIds (convertToHierarchy ∅ 0 200
      (.obj [("a", .num 1), ("b", .arr [.num 1, .num 2])]) "root" 0 2
      "")).Nodup :=
  c4_amended_distinct_paths
    (.obj [("a", .num 1), ("b", .arr [.num 1, .num 2])]) ∅ 0 200 2 (by decide)

end JsonVerse
